import Mathlib

/-!
Verification of the filtering / calendar-alignment / correlation / curation core
of the dailychartcrime repository (tools/compute_correlations.py and
tools/curate_series.py), as a shallow embedding in Lean 4.

Modelling conventions, fixed once for the whole file:
* ISO-8601 date strings ("YYYY-MM-DD") are compared lexicographically in the
  Python source, which coincides with chronological order; dates are therefore
  modelled as natural numbers with their usual order.
* Observation values and correlation inputs are modelled as exact rationals;
  the real-valued correlation coefficient (which involves a square root) lives
  in ℝ.  Decimal threshold literals (0.95, 0.15, 0.1, 0.3) are modelled as the
  exact rationals they denote.
* Python sets of dates are modelled as lists of distinct dates; dictionaries
  built by comprehension (later entries overriding earlier ones) are modelled
  by `dictGet`, a last-entry-wins lookup.
-/

namespace DCC

/-- Prefix test on character lists: `isPre p l` is true when `p` is an initial
segment of `l`. -/
def isPre : List Char → List Char → Bool
  | [], _ => true
  | _ :: _, [] => false
  | a :: as, b :: bs => a == b && isPre as bs

/-- Substring containment on character lists, the model of Python's
`needle in hay` on strings: some tail of `hay` starts with `needle`. -/
def hasSub (needle : List Char) : List Char → Bool
  | [] => needle.isEmpty
  | c :: t => isPre needle (c :: t) || hasSub needle t

/-- `strContains hay needle` models Python `needle in hay` where `hay` is the
(character data of the) scrutinised string. -/
def strContains (hay : List Char) (needle : String) : Bool :=
  hasSub needle.data hay

/-- Model of Python's `str.lower()` on the character data of a string. -/
def lowerData (s : String) : List Char :=
  s.data.map Char.toLower

/-- The `EXCLUDE_KEYWORDS` constant of compute_correlations.py, verbatim. -/
def EXCLUDE_KEYWORDS : List String := [
  "vix", "volatility index", "nikkei", "nasdaq", "dow jones",
  "russell 2000", "s&p 500", "s&p500",
  "bitcoin", "ethereum", "coinbase", "litecoin", "bitcoin cash",
  "crypto",
  "gold price", "silver price", "copper price", "oil price",
  "platinum price", "palladium price",
  "wheat price", "corn price", "soybean price",
  "lumber price", "cotton price", "coffee price",
  "cocoa price", "sugar price", "cattle price",
  "natural gas price", "gasoline price", "diesel price",
  "wti", "brent",
  "commodity index",
  "stock price", "share price", "equity price",
  "total return index value"]

/-- The `EXCLUDE_IDS` constant of compute_correlations.py, verbatim.  The
Python set is modelled as a list; only membership is ever used. -/
def EXCLUDE_IDS : List String := [
  "VIXCLS", "VXNCLS", "VXDCLS", "VXVCLS", "RVXCLS",
  "VXGSCLS", "VXAPLCLS", "VXAZNCLS", "VXGOGCLS", "VXIBMCLS",
  "VXSLVCLS", "VXEWZCLS", "VXFXICLS", "VXEEMCLS", "VXGDXCLS",
  "VXUSCLS",
  "NIKKEI225",
  "CBBTCUSD", "CBETHUSD", "CBLTCUSD", "CBBCHUSD",
  "DGASNYH", "DGASRGCG", "DCOILWTICO", "DCOILBRENTEU",
  "DHHNGSP", "DPROPANEMBTX",
  "GOLDAMGBD228NLBM", "GOLDPMGBD228NLBM",
  "SLVPRUSD",
  "BAMLHYH0A3CMTRIV", "BAMLHYH0A0HYM2TRIV",
  "BAMLCC0A1AAATRIV", "BAMLCC0A0CMTRIV"]

/-- A catalog series record: only `id` and `title` are consulted by the
exclusion filter. -/
structure Series where
  id : String
  title : String
deriving DecidableEq

/-- `is_excluded` from compute_correlations.py: static id denylist membership,
or any disqualifying keyword occurring in the lower-cased title. -/
def is_excluded (s : Series) : Bool :=
  EXCLUDE_IDS.contains s.id ||
    EXCLUDE_KEYWORDS.any (fun kw => strContains (lowerData s.title) kw)

/-- The effective exclusion identifier set built in `__main__`:
`EXCLUDE_IDS | exclude_from_category`, where `catIds` is the external
category-membership id set (Stock Market Indexes category). -/
def effectiveExcludedIds (catIds : List String) : List String :=
  EXCLUDE_IDS ++ catIds

/-- The `__main__` catalog filter: a series is kept when its id is not in the
effective exclusion id set and `is_excluded` is false.  The exclusion
decision for a series is `keepSeries ... = false`. -/
def keepSeries (catIds : List String) (s : Series) : Bool :=
  !((effectiveExcludedIds catIds).contains s.id) && !(is_excluded s)

/-! ## Calendar aligner (compute_correlations.py, `forward_fill` and the
`__main__` alignment loop) -/

/-- One observation of a series: a date (naturals model ISO date strings,
whose lexicographic order is chronological) and a rational value. -/
structure Obs where
  date : ℕ
  value : ℚ
deriving DecidableEq

/-- `sorted(obs, key=lambda x: x['date'])`. -/
def sortObs (l : List Obs) : List Obs :=
  List.insertionSort (fun a b => a.date ≤ b.date) l

/-- `sorted(target_dates)` on a collection of dates. -/
def sortDates (l : List ℕ) : List ℕ :=
  List.insertionSort (fun a b => a ≤ b) l

/-- The inner scan of `forward_fill`: walk `obs_sorted` keeping the value of
the most recent observation with `date <= d`, stopping at the first
observation with `date > d` (the `else: break`).  `none` models Python's
`prior_value is None`. -/
def priorValue (d : ℕ) : List Obs → Option ℚ
  | [] => none
  | o :: rest =>
    if o.date ≤ d then
      match priorValue d rest with
      | some v => some v
      | none => some o.value
    else none

/-- The fill loop of `forward_fill` over the ascending missing dates.
`obsDates` are the keys initially present in `obs_map`; `acc` are the dates
filled so far (the keys added to `obs_map` during the loop).  Returns the
`extra` list of filled observations, or `none` as soon as some date has no
prior observation. -/
def ffGo (s : List Obs) (obsDates : List ℕ) (acc : List ℕ) :
    List ℕ → Option (List Obs)
  | [] => some []
  | d :: ds =>
    if obsDates.contains d || acc.contains d then ffGo s obsDates acc ds
    else
      match priorValue d s with
      | none => none
      | some v =>
        match ffGo s obsDates (d :: acc) ds with
        | none => none
        | some extra => some (⟨d, v⟩ :: extra)

/-- `forward_fill(obs, target_dates)` from compute_correlations.py: returns
the augmented observation list `obs_sorted + extra`, or `none` when some
target date precedes every observation.  (When `extra` is empty the source
returns `obs_sorted`, which equals `obs_sorted ++ []`.) -/
def forward_fill (obs : List Obs) (target : List ℕ) : Option (List Obs) :=
  let s := sortObs obs
  match ffGo s (obs.map Obs.date) [] (sortDates target) with
  | none => none
  | some extra => some (s ++ extra)

/-- Lookup in the dictionary `{o['date']: o['value'] for o in l}`: Python dict
comprehensions let later entries override earlier ones, hence the
last-entry-wins fold. -/
def dictGet (l : List Obs) (d : ℕ) : Option ℚ :=
  l.foldl (fun a o => if o.date = d then some o.value else a) none

/-- `max_missing = int((1.0 - MIN_OVERLAP_RATIO) * len(sp500_dates))` with
`MIN_OVERLAP_RATIO = 0.95`.  For every feasible set size `n` (far below
`10^14`) the double-precision computation truncates to exactly
`floor(n / 20)`, which is natural-number division by 20. -/
def max_missing (n : ℕ) : ℕ :=
  n / 20

/-- `missing_dates = sp500_dates - obs_dates`, as the sublist of benchmark
dates carrying no candidate observation. -/
def missingDates (bench : List ℕ) (obs : List Obs) : List ℕ :=
  bench.filter (fun d => !((obs.map Obs.date).contains d))

/-- The per-candidate alignment decision of the `__main__` loop (lines
339-370): reject when more than `max_missing` benchmark dates are missing;
otherwise LOCF-fill the missing dates (rejecting when `forward_fill` fails);
on acceptance return the `filled_dates` list (`sorted(missing_dates)`) and
the augmented observation list from which `obs_map` is built. -/
def align (bench : List ℕ) (obs : List Obs) : Option (List ℕ × List Obs) :=
  let missing := missingDates bench obs
  if missing.length > max_missing bench.length then none
  else if missing.isEmpty then some ([], obs)
  else
    match forward_fill obs missing with
    | none => none
    | some obs2 => some (sortDates missing, obs2)

/-! ## Correlation scorer (compute_correlations.py, `pearson_r` and the
result rounding at the `results.append` site) -/

/-- Arithmetic mean of a rational list (`np.mean`); division by zero (empty
list) yields Lean's `0`, a case excluded by the length guard wherever the
mean is consulted. -/
def mean (l : List ℚ) : ℚ :=
  l.sum / l.length

/-- Population variance (`np.std(l) ** 2`): mean squared deviation. -/
def var (l : List ℚ) : ℚ :=
  (l.map (fun x => (x - mean l) ^ 2)).sum / l.length

/-- Population covariance of two equal-length samples, the off-diagonal
numerator of `np.corrcoef`. -/
def cov (xs ys : List ℚ) : ℚ :=
  ((xs.zip ys).map (fun p => (p.1 - mean xs) * (p.2 - mean ys))).sum /
    xs.length

/-- The value `np.corrcoef(xs, ys)[0, 1]` computes on the guarded path:
covariance over the product of the standard deviations. -/
noncomputable def corrVal (xs ys : List ℚ) : ℝ :=
  (cov xs ys : ℝ) / (Real.sqrt (var xs) * Real.sqrt (var ys))

/-- `pearson_r(xs, ys)` from compute_correlations.py.  `none` models the
`float('nan')` returns (length below 10, or a zero standard deviation, which
for rational data is exactly a zero variance); otherwise the correlation
coefficient is returned. -/
noncomputable def pearson_r (xs ys : List ℚ) : Option ℝ :=
  if xs.length < 10 then none
  else if var xs = 0 ∨ var ys = 0 then none
  else some (corrVal xs ys)

/-- `round(r, 6)` at the `results.append` site: rounding to the nearest
multiple of `10^-6` (ties, a measure-zero case, follow `round`'s convention). -/
noncomputable def roundTo6 (x : ℝ) : ℝ :=
  ((round (x * 1000000) : ℤ) : ℝ) / 1000000

/-! ## Ranking and curation (curate_series.py) -/

/-- A correlation result row as consumed by curate_series.py; `n` is the
`n_dates` aligned-sample count. -/
structure Row where
  id : String
  title : String
  r : ℚ
  abs_r : ℚ
  n : ℕ
deriving DecidableEq

/-- Curation category tags attached by the rotation builder. -/
inductive Cat where
  | funny
  | financial
  | other
deriving DecidableEq

/-- The reliability filter: `aligned_count(c) >= 20`. -/
def reliableRows (l : List Row) : List Row :=
  l.filter (fun c => 20 ≤ c.n)

/-- The deduplication loop with its `seen_titles` accumulator: keep a row
only when its title has not been seen before. -/
def dedupGo (seen : List String) : List Row → List Row
  | [] => []
  | c :: rest =>
    if seen.contains c.title then dedupGo seen rest
    else c :: dedupGo (c.title :: seen) rest

/-- `deduped`: deduplication by exact title, first occurrence kept. -/
def dedupByTitle (l : List Row) : List Row :=
  dedupGo [] l

/-- The `funny_keywords` list of `is_funny`, verbatim. -/
def funny_keywords : List String := [
  "indeed", "job posting", "beauty", "wellness", "therapy",
  "nursing", "pharmacy", "coffee", "bitcoin", "crypto",
  "loading", "stocking", "installation", "maintenance",
  "scientific research", "real estate", "software development",
  "marketing", "insurance", "media", "human resources",
  "oregon", "west virginia", "tennessee", "maine",
  "australia", "germany", "france", "united kingdom", "canada"]

/-- The `interesting` keyword list of `is_interesting_financial`, verbatim. -/
def interesting_keywords : List String := [
  "VIX",
  "High Yield Index Option-Adjusted Spread",
  "Policy Rate Uncertainty",
  "Breakeven Inflation",
  "10-Year Treasury",
  "Dollar Index",
  "Gold",
  "Nikkei",
  "SOFR",
  "Federal Funds",
  "Mortgage",
  "Swap"]

/-- `is_funny(c)`: any humor keyword occurs in the lower-cased title. -/
def is_funny (c : Row) : Bool :=
  funny_keywords.any (fun kw => strContains (lowerData c.title) kw)

/-- `is_interesting_financial(c)`: any finance keyword occurs in the title
(case-sensitive in the source). -/
def is_interesting_financial (c : Row) : Bool :=
  interesting_keywords.any (fun kw => strContains c.title.data kw)

/-- First classification rule: `is_funny(c) and c["abs_r"] > 0.15`
(`mkRat 15 100` is the rational 0.15). -/
def funnyRule (c : Row) : Bool :=
  is_funny c && decide (mkRat 15 100 < c.abs_r)

/-- Second classification rule: `is_interesting_financial(c) and
c["abs_r"] > 0.1` (`mkRat 1 10` is the rational 0.1). -/
def financialRule (c : Row) : Bool :=
  is_interesting_financial c && decide (mkRat 1 10 < c.abs_r)

/-- Third classification rule: `c["abs_r"] > 0.3` (`mkRat 3 10` is the
rational 0.3). -/
def otherRule (c : Row) : Bool :=
  decide (mkRat 3 10 < c.abs_r)

/-- The classification loop over `deduped`: the `if / elif / elif` chain
distributing rows into `funny_series`, `financial_series`, `other_series`
(rows matching no rule are appended nowhere). -/
def categorize : List Row → List Row × List Row × List Row
  | [] => ([], [], [])
  | c :: rest =>
    let t := categorize rest
    if funnyRule c then (c :: t.1, t.2.1, t.2.2)
    else if financialRule c then (t.1, c :: t.2.1, t.2.2)
    else if otherRule c then (t.1, t.2.1, c :: t.2.2)
    else t

/-- `list.sort(key=lambda x: x["abs_r"], reverse=True)` on untagged rows. -/
def sortRows (l : List Row) : List Row :=
  List.insertionSort (fun a b => b.abs_r ≤ a.abs_r) l

/-- The final `curated.sort(key=lambda x: x["abs_r"], reverse=True)` on
category-tagged rows. -/
def sortTagged (l : List (Row × Cat)) : List (Row × Cat) :=
  List.insertionSort (fun a b => b.1.abs_r ≤ a.1.abs_r) l

/-- Membership of a title in the capped "ICE BofA" family. -/
def isBofA (c : Row) : Bool :=
  strContains c.title.data "ICE BofA"

/-- Membership of a title in the capped CBOE/VIX volatility family
(`"CBOE" in t or "VIX" in t`). -/
def isVol (c : Row) : Bool :=
  strContains c.title.data "CBOE" || strContains c.title.data "VIX"

/-- The financial cap loop: walk `financial_series` with the `baml_count`
and `vix_count` counters, incrementing a counter whenever the row is in its
family and skipping the row (`continue`) once the counter exceeds its cap
(5 for "ICE BofA", 3 for CBOE/VIX).  Note the source increments before
testing, and a row skipped by the BofA cap never reaches the CBOE/VIX
test. -/
def capFinancial (baml vix : ℕ) : List Row → List Row
  | [] => []
  | c :: rest =>
    if isBofA c then
      if baml + 1 > 5 then capFinancial (baml + 1) vix rest
      else if isVol c then
        if vix + 1 > 3 then capFinancial (baml + 1) (vix + 1) rest
        else c :: capFinancial (baml + 1) (vix + 1) rest
      else c :: capFinancial (baml + 1) vix rest
    else if isVol c then
      if vix + 1 > 3 then capFinancial baml (vix + 1) rest
      else c :: capFinancial baml (vix + 1) rest
    else c :: capFinancial baml vix rest

/-- The `other_series` loop: rows of the "ICE BofA" or "CBOE" families are
skipped (`continue  # Already represented`). -/
def capOther (l : List Row) : List Row :=
  l.filter (fun c => !(strContains c.title.data "ICE BofA" ||
    strContains c.title.data "CBOE"))

/-- The whole curation pipeline of curate_series.py on the loaded
correlation rows: reliability filter, title deduplication, classification,
per-category `abs_r`-descending sorts, the category-tagged rotation build
with family caps, and the final `abs_r`-descending sort. -/
def curate (input : List Row) : List (Row × Cat) :=
  let deduped := dedupByTitle (reliableRows input)
  let t := categorize deduped
  let kept :=
    (sortRows t.1).map (fun c => (c, Cat.funny)) ++
      (capFinancial 0 0 (sortRows t.2.1)).map (fun c => (c, Cat.financial)) ++
      (capOther (sortRows t.2.2)).map (fun c => (c, Cat.other))
  sortTagged kept

/-! ## Helper lemmas about the calendar aligner -/

lemma contains_iff {α : Type} [BEq α] [LawfulBEq α] (l : List α) (a : α) :
    l.contains a = true ↔ a ∈ l := by
  simp

instance : IsTotal Obs (fun a b => a.date ≤ b.date) :=
  ⟨fun a b => Nat.le_total a.date b.date⟩

instance : IsTrans Obs (fun a b => a.date ≤ b.date) :=
  ⟨fun _ _ _ h h' => Nat.le_trans h h'⟩

lemma sortObs_perm (l : List Obs) : (sortObs l).Perm l :=
  List.perm_insertionSort _ l

lemma sortObs_sorted (l : List Obs) :
    (sortObs l).Sorted (fun a b => a.date ≤ b.date) :=
  List.sorted_insertionSort _ l

lemma sortDates_perm (l : List ℕ) : (sortDates l).Perm l :=
  List.perm_insertionSort _ l

lemma priorValue_mem {d : ℕ} {s : List Obs} {v : ℚ}
    (h : priorValue d s = some v) : ∃ o ∈ s, o.date ≤ d ∧ o.value = v := by
  induction s with
  | nil => simp [priorValue] at h
  | cons o rest ih =>
    rw [priorValue] at h
    by_cases hd : o.date ≤ d
    · rw [if_pos hd] at h
      cases hr : priorValue d rest with
      | some w =>
        rw [hr] at h
        injection h with h
        subst h
        obtain ⟨o', ho', hle, hv⟩ := ih hr
        exact ⟨o', List.mem_cons_of_mem _ ho', hle, hv⟩
      | none =>
        rw [hr] at h
        injection h with h
        exact ⟨o, List.mem_cons_self _ _, hd, h⟩
    · rw [if_neg hd] at h
      cases h

lemma priorValue_none_sorted {d : ℕ} {s : List Obs}
    (hs : s.Sorted (fun a b => a.date ≤ b.date))
    (h : priorValue d s = none) : ∀ o ∈ s, ¬ o.date ≤ d := by
  cases s with
  | nil => simp
  | cons o rest =>
    have hhead : ¬ o.date ≤ d := by
      intro hod
      rw [priorValue, if_pos hod] at h
      cases hr : priorValue d rest with
      | some w => rw [hr] at h; cases h
      | none => rw [hr] at h; cases h
    intro o' ho' hle
    rcases List.mem_cons.mp ho' with rfl | hmem
    · exact hhead hle
    · exact hhead (Nat.le_trans (List.rel_of_sorted_cons hs o' hmem) hle)

lemma priorValue_spec {d : ℕ} {s : List Obs} {v : ℚ}
    (hs : s.Sorted (fun a b => a.date ≤ b.date))
    (h : priorValue d s = some v) :
    ∃ o ∈ s, o.value = v ∧ o.date ≤ d ∧
      ∀ o' ∈ s, o'.date ≤ d → o'.date ≤ o.date := by
  induction s with
  | nil => simp [priorValue] at h
  | cons o rest ih =>
    have hsr := hs.of_cons
    have hrel := List.rel_of_sorted_cons hs
    rw [priorValue] at h
    by_cases hd : o.date ≤ d
    · rw [if_pos hd] at h
      cases hr : priorValue d rest with
      | some w =>
        rw [hr] at h
        injection h with h
        subst h
        obtain ⟨o', ho', hov, hod, hmax⟩ := ih hsr hr
        refine ⟨o', List.mem_cons_of_mem _ ho', hov, hod, ?_⟩
        intro o'' ho'' hle
        rcases List.mem_cons.mp ho'' with rfl | h''
        · exact hrel o' ho'
        · exact hmax o'' h'' hle
      | none =>
        rw [hr] at h
        injection h with h
        refine ⟨o, List.mem_cons_self _ _, h, hd, ?_⟩
        intro o'' ho'' hle
        rcases List.mem_cons.mp ho'' with rfl | h''
        · exact Nat.le_refl _
        · exact absurd hle (priorValue_none_sorted hsr hr o'' h'')
    · rw [if_neg hd] at h
      cases h

lemma ffGo_spec {s : List Obs} {od : List ℕ} :
    ∀ {ts acc : List ℕ} {extra : List Obs}, ffGo s od acc ts = some extra →
      (∀ e ∈ extra, priorValue e.date s = some e.value ∧ e.date ∈ ts ∧
        e.date ∉ od ∧ e.date ∉ acc) ∧
      (∀ d ∈ ts, d ∈ od ∨ d ∈ acc ∨ d ∈ extra.map Obs.date) ∧
      (extra.map Obs.date).Nodup := by
  intro ts
  induction ts with
  | nil =>
    intro acc extra h
    rw [ffGo] at h
    injection h with h
    subst h
    exact ⟨by simp, by simp, by simp⟩
  | cons d ds ih =>
    intro acc extra h
    rw [ffGo] at h
    by_cases hskip : od.contains d || acc.contains d
    · rw [if_pos hskip] at h
      obtain ⟨h1, h2, h3⟩ := ih h
      refine ⟨fun e he => ?_, fun d' hd' => ?_, h3⟩
      · obtain ⟨hp, hts, hodm, hacc⟩ := h1 e he
        exact ⟨hp, List.mem_cons_of_mem _ hts, hodm, hacc⟩
      · rcases List.mem_cons.mp hd' with rfl | hmem
        · simp only [Bool.or_eq_true, contains_iff] at hskip
          rcases hskip with hc | hc
          · exact Or.inl hc
          · exact Or.inr (Or.inl hc)
        · exact h2 d' hmem
    · rw [if_neg hskip] at h
      simp only [Bool.or_eq_true, contains_iff, not_or] at hskip
      obtain ⟨hod, hacc⟩ := hskip
      cases hp : priorValue d s with
      | none => rw [hp] at h; cases h
      | some v =>
        rw [hp] at h
        cases hrec : ffGo s od (d :: acc) ds with
        | none => rw [hrec] at h; cases h
        | some extra' =>
          rw [hrec] at h
          injection h with h
          subst h
          obtain ⟨h1, h2, h3⟩ := ih hrec
          refine ⟨fun e he => ?_, fun d' hd' => ?_, ?_⟩
          · rcases List.mem_cons.mp he with rfl | hmem
            · exact ⟨hp, List.mem_cons_self _ _, hod, hacc⟩
            · obtain ⟨hpv, hts, hodd, hacc'⟩ := h1 e hmem
              exact ⟨hpv, List.mem_cons_of_mem _ hts, hodd,
                fun hc => hacc' (List.mem_cons_of_mem _ hc)⟩
          · rcases List.mem_cons.mp hd' with rfl | hmem
            · exact Or.inr (Or.inr (by simp))
            · rcases h2 d' hmem with h' | h' | h'
              · exact Or.inl h'
              · rcases List.mem_cons.mp h' with rfl | hm
                · exact Or.inr (Or.inr (by simp))
                · exact Or.inr (Or.inl hm)
              · refine Or.inr (Or.inr ?_)
                simp only [List.map_cons]
                exact List.mem_cons_of_mem _ h'
          · simp only [List.map_cons, List.nodup_cons]
            refine ⟨fun hc => ?_, h3⟩
            obtain ⟨e, he, hed⟩ := List.mem_map.mp hc
            exact (h1 e he).2.2.2 (by rw [hed]; exact List.mem_cons_self _ _)

lemma forward_fill_spec {obs : List Obs} {target : List ℕ} {res : List Obs}
    (h : forward_fill obs target = some res) :
    ∃ extra, res = sortObs obs ++ extra ∧
      (∀ e ∈ extra, priorValue e.date (sortObs obs) = some e.value ∧
        e.date ∈ target ∧ e.date ∉ obs.map Obs.date) ∧
      (∀ d ∈ target, d ∈ obs.map Obs.date ∨ d ∈ extra.map Obs.date) ∧
      (extra.map Obs.date).Nodup := by
  rw [forward_fill] at h
  cases hg : ffGo (sortObs obs) (obs.map Obs.date) [] (sortDates target) with
  | none => rw [hg] at h; cases h
  | some extra =>
    rw [hg] at h
    injection h with h
    obtain ⟨h1, h2, h3⟩ := ffGo_spec hg
    refine ⟨extra, h.symm, fun e he => ?_, fun d hd => ?_, h3⟩
    · obtain ⟨hp, hts, hodm, _⟩ := h1 e he
      exact ⟨hp, (sortDates_perm target).mem_iff.mp hts, hodm⟩
    · rcases h2 d ((sortDates_perm target).mem_iff.mpr hd) with h' | h' | h'
      · exact Or.inl h'
      · cases h'
      · exact Or.inr h'

lemma mem_missingDates {bench : List ℕ} {obs : List Obs} {d : ℕ} :
    d ∈ missingDates bench obs ↔ d ∈ bench ∧ d ∉ obs.map Obs.date := by
  simp [missingDates, List.mem_filter]

lemma align_none_of_gt {bench : List ℕ} {obs : List Obs}
    (h : (missingDates bench obs).length > max_missing bench.length) :
    align bench obs = none := by
  simp [align, h]

lemma align_some_cases {bench : List ℕ} {obs : List Obs} {filled : List ℕ}
    {obs2 : List Obs} (h : align bench obs = some (filled, obs2)) :
    (missingDates bench obs).length ≤ max_missing bench.length ∧
      ((missingDates bench obs = [] ∧ filled = [] ∧ obs2 = obs) ∨
        (filled = sortDates (missingDates bench obs) ∧
          forward_fill obs (missingDates bench obs) = some obs2)) := by
  rw [align] at h
  by_cases h1 : (missingDates bench obs).length > max_missing bench.length
  · rw [if_pos h1] at h; cases h
  · rw [if_neg h1] at h
    refine ⟨Nat.le_of_not_lt h1, ?_⟩
    by_cases h2 : (missingDates bench obs).isEmpty
    · rw [if_pos h2] at h
      injection h with h
      have hf := congrArg Prod.fst h
      have ho := congrArg Prod.snd h
      simp only at hf ho
      exact Or.inl ⟨List.isEmpty_iff.mp h2, hf.symm, ho.symm⟩
    · rw [if_neg h2] at h
      cases hff : forward_fill obs (missingDates bench obs) with
      | none => rw [hff] at h; cases h
      | some o2 =>
        rw [hff] at h
        injection h with h
        have hf := congrArg Prod.fst h
        have ho := congrArg Prod.snd h
        simp only at hf ho
        exact Or.inr ⟨hf.symm, congrArg some ho⟩

lemma dictGet_foldl (d : ℕ) (t : List Obs) :
    ∀ init, t.foldl (fun a o => if o.date = d then some o.value else a) init =
      (dictGet t d).elim init some := by
  induction t using List.reverseRecOn with
  | nil => intro init; simp [dictGet]
  | append_singleton ys y ih =>
    intro init
    have e : ∀ i : Option ℚ,
        (ys ++ [y]).foldl (fun a o => if o.date = d then some o.value else a) i =
          if y.date = d then some y.value
          else ys.foldl (fun a o => if o.date = d then some o.value else a) i := by
      intro i
      rw [List.foldl_append]
      simp
    have h2 : dictGet (ys ++ [y]) d =
        if y.date = d then some y.value else dictGet ys d := e none
    rw [e init, h2]
    by_cases hy : y.date = d
    · simp [hy]
    · rw [if_neg hy, if_neg hy, ih init]

lemma dictGet_append (l₁ l₂ : List Obs) (d : ℕ) :
    dictGet (l₁ ++ l₂) d = (dictGet l₂ d).elim (dictGet l₁ d) some := by
  rw [dictGet, List.foldl_append]
  exact dictGet_foldl d l₂ _

lemma dictGet_eq_none {l : List Obs} {d : ℕ} (h : d ∉ l.map Obs.date) :
    dictGet l d = none := by
  induction l with
  | nil => rfl
  | cons x xs ih =>
    have hx : ¬ x.date = d := by
      intro he
      exact h (by simp only [List.map_cons, List.mem_cons]; exact Or.inl he.symm)
    have hxs : d ∉ xs.map Obs.date := by
      intro hm
      exact h (by simp only [List.map_cons, List.mem_cons]; exact Or.inr hm)
    rw [dictGet, List.foldl_cons, if_neg hx]
    exact ih hxs

lemma dictGet_of_nodup {l : List Obs} {o : Obs} (hn : (l.map Obs.date).Nodup)
    (ho : o ∈ l) : dictGet l o.date = some o.value := by
  induction l with
  | nil => cases ho
  | cons x xs ih =>
    simp only [List.map_cons, List.nodup_cons] at hn
    rcases List.mem_cons.mp ho with rfl | hmem
    · rw [dictGet, List.foldl_cons, if_pos rfl, dictGet_foldl o.date xs _,
        dictGet_eq_none hn.1]
      rfl
    · rw [dictGet, List.foldl_cons, dictGet_foldl o.date xs _, ih hn.2 hmem]
      rfl

/-! ## Claims C1, C2, C3, C10 -/

/-- Claim C1: when the number of missing benchmark dates exceeds
`floor((1 - 0.95) * |D_bench|)` the candidate is rejected with no fill
performed (the rejection happens before `forward_fill` is consulted), and
every accepted candidate has at most that many filled dates, all of which
are benchmark dates. -/
theorem c1_overlap_bound (bench : List ℕ) (obs : List Obs) :
    ((missingDates bench obs).length > max_missing bench.length →
      align bench obs = none) ∧
    ∀ filled obs2, align bench obs = some (filled, obs2) →
      filled.length ≤ max_missing bench.length ∧ ∀ d ∈ filled, d ∈ bench := by
  refine ⟨align_none_of_gt, ?_⟩
  intro filled obs2 h
  obtain ⟨hle, hcase⟩ := align_some_cases h
  rcases hcase with ⟨hm, rfl, _⟩ | ⟨rfl, hff⟩
  · exact ⟨Nat.zero_le _, by simp⟩
  · constructor
    · rw [(sortDates_perm _).length_eq]
      exact hle
    · intro d hd
      exact (mem_missingDates.mp ((sortDates_perm _).mem_iff.mp hd)).1

theorem c1_witness : align [1, 2, 3] [⟨1, 10⟩] = none :=
  (c1_overlap_bound [1, 2, 3] [⟨1, 10⟩]).1 (by decide)

/-- Claim C2: a candidate within the missing-date threshold is still
rejected when some missing benchmark date precedes every candidate
observation, and an accepted candidate never has a filled date earlier than
its earliest real observation. -/
theorem c2_prehistory_rejected :
    (∀ bench obs,
      (missingDates bench obs).length ≤ max_missing bench.length →
      (∃ d ∈ missingDates bench obs, ∀ o ∈ obs, ¬ o.date ≤ d) →
      align bench obs = none) ∧
    ∀ bench obs filled obs2, align bench obs = some (filled, obs2) →
      ∀ d ∈ filled, ∃ o ∈ obs, o.date ≤ d := by
  constructor
  · rintro bench obs _hthr ⟨d, hd, hbad⟩
    rw [align]
    by_cases h1 : (missingDates bench obs).length > max_missing bench.length
    · rw [if_pos h1]
    · rw [if_neg h1]
      have hne : ¬ (missingDates bench obs).isEmpty = true := by
        intro he
        rw [List.isEmpty_iff.mp he] at hd
        cases hd
      rw [if_neg hne]
      cases hff : forward_fill obs (missingDates bench obs) with
      | none => rfl
      | some res =>
        exfalso
        obtain ⟨extra, _, h1', h2', _⟩ := forward_fill_spec hff
        rcases h2' d hd with hmem | hmem
        · exact (mem_missingDates.mp hd).2 hmem
        · obtain ⟨e, he, hed⟩ := List.mem_map.mp hmem
          obtain ⟨hp, _, _⟩ := h1' e he
          obtain ⟨o, ho, hle, _⟩ := priorValue_mem hp
          refine hbad o ((sortObs_perm obs).mem_iff.mp ho) ?_
          rw [← hed]
          exact hle
  · intro bench obs filled obs2 h d hd
    obtain ⟨_, hcase⟩ := align_some_cases h
    rcases hcase with ⟨_, rfl, _⟩ | ⟨rfl, hff⟩
    · cases hd
    · obtain ⟨extra, _, h1', h2', _⟩ := forward_fill_spec hff
      have hdm := (sortDates_perm _).mem_iff.mp hd
      rcases h2' d hdm with hmem | hmem
      · exact absurd hmem (mem_missingDates.mp hdm).2
      · obtain ⟨e, he, hed⟩ := List.mem_map.mp hmem
        obtain ⟨hp, _, _⟩ := h1' e he
        obtain ⟨o, ho, hle, _⟩ := priorValue_mem hp
        refine ⟨o, (sortObs_perm obs).mem_iff.mp ho, ?_⟩
        rw [← hed]
        exact hle

theorem c2_witness :
    align (List.range 20) ((List.range 19).map (fun i => (⟨i + 1, 1⟩ : Obs))) =
      none :=
  c2_prehistory_rejected.1 _ _ (by decide) (by decide)

/-- Claim C3: every filled date of an accepted candidate receives the value
of the most recent candidate observation dated on or before it (strictly
backward-looking; the maximality clause rules out drawing from any later
observation). -/
theorem c3_locf_backward (bench : List ℕ) (obs : List Obs) (filled : List ℕ)
    (obs2 : List Obs) (hal : align bench obs = some (filled, obs2)) :
    ∀ d ∈ filled, ∃ o ∈ obs, o.date ≤ d ∧
      (∀ o' ∈ obs, o'.date ≤ d → o'.date ≤ o.date) ∧
      dictGet obs2 d = some o.value := by
  intro d hd
  obtain ⟨_, hcase⟩ := align_some_cases hal
  rcases hcase with ⟨_, rfl, _⟩ | ⟨rfl, hff⟩
  · cases hd
  · obtain ⟨extra, rfl, h1', h2', h3'⟩ := forward_fill_spec hff
    have hdm := (sortDates_perm _).mem_iff.mp hd
    have hdnot := (mem_missingDates.mp hdm).2
    rcases h2' d hdm with hmem | hmem
    · exact absurd hmem hdnot
    · obtain ⟨e, he, hed⟩ := List.mem_map.mp hmem
      obtain ⟨hp, _, _⟩ := h1' e he
      obtain ⟨o, ho, hov, hole, hmax⟩ := priorValue_spec (sortObs_sorted obs) hp
      refine ⟨o, (sortObs_perm obs).mem_iff.mp ho, ?_, ?_, ?_⟩
      · rw [← hed]
        exact hole
      · intro o' ho' hle
        refine hmax o' ((sortObs_perm obs).mem_iff.mpr ho') ?_
        rw [hed]
        exact hle
      · rw [dictGet_append]
        have hx : dictGet extra d = some e.value := by
          rw [← hed]
          exact dictGet_of_nodup h3' he
        rw [hx, hov]
        rfl

def wBench : List ℕ := List.range 20

def wObs : List Obs :=
  (List.range 20).filterMap
    (fun d => if d = 5 then none else some ⟨d, (d : ℚ)⟩)

theorem c3_witness : dictGet (sortObs wObs ++ [⟨5, 4⟩]) 5 = some 4 := by
  obtain ⟨o, ho, hle, hmax, hget⟩ :=
    c3_locf_backward wBench wObs [5] (sortObs wObs ++ [⟨5, 4⟩]) (by decide) 5
      (by decide)
  have h4 : (4 : ℕ) ≤ o.date := hmax ⟨4, 4⟩ (by decide) (by decide)
  have h5 : o.date ≠ 5 := by
    have : ∀ o' ∈ wObs, o'.date ≠ 5 := by decide
    exact this o ho
  have hod : o.date = 4 := by omega
  have : ∀ o' ∈ wObs, o'.date = 4 → o' = ⟨4, 4⟩ := by decide
  rw [hget, this o ho hod]

/-- Claim C10: an accepted alignment never overwrites a real observation —
on every benchmark date carrying a real candidate observation the aligned
value is that observation's value — and the filled-date list consists of
exactly the benchmark dates without a real observation. -/
theorem c10_no_overwrite (bench : List ℕ) (obs : List Obs) (filled : List ℕ)
    (obs2 : List Obs) (hn : (obs.map Obs.date).Nodup)
    (hal : align bench obs = some (filled, obs2)) :
    (∀ o ∈ obs, o.date ∈ bench → dictGet obs2 o.date = some o.value) ∧
    ∀ d, d ∈ filled ↔ d ∈ bench ∧ d ∉ obs.map Obs.date := by
  obtain ⟨_, hcase⟩ := align_some_cases hal
  rcases hcase with ⟨hm, rfl, ho2⟩ | ⟨rfl, hff⟩
  · subst ho2
    refine ⟨fun o ho _ => dictGet_of_nodup hn ho, fun d => ?_⟩
    constructor
    · intro h
      cases h
    · intro hrhs
      have hmem := mem_missingDates.mpr hrhs
      rw [hm] at hmem
      cases hmem
  · obtain ⟨extra, rfl, h1', h2', h3'⟩ := forward_fill_spec hff
    constructor
    · intro o ho _
      rw [dictGet_append]
      have hnone : dictGet extra o.date = none := by
        apply dictGet_eq_none
        intro hmem
        obtain ⟨e, he, hed⟩ := List.mem_map.mp hmem
        refine (h1' e he).2.2 ?_
        rw [hed]
        exact List.mem_map.mpr ⟨o, ho, rfl⟩
      rw [hnone]
      have hsn : ((sortObs obs).map Obs.date).Nodup :=
        ((sortObs_perm obs).map Obs.date).nodup_iff.mpr hn
      exact dictGet_of_nodup hsn ((sortObs_perm obs).mem_iff.mpr ho)
    · intro d
      exact ⟨fun h => mem_missingDates.mp ((sortDates_perm _).mem_iff.mp h),
        fun h => (sortDates_perm _).mem_iff.mpr (mem_missingDates.mpr h)⟩

theorem c10_witness :
    dictGet (sortObs wObs ++ [⟨5, 4⟩]) 3 = some 3 ∧
    (5 ∈ ([5] : List ℕ) ↔ 5 ∈ wBench ∧ 5 ∉ wObs.map Obs.date) := by
  have h := c10_no_overwrite wBench wObs [5] (sortObs wObs ++ [⟨5, 4⟩])
    (by decide) (by decide)
  exact ⟨h.1 ⟨3, 3⟩ (by decide) (by decide), h.2 5⟩

/-! ## Helper lemmas about the correlation scorer -/

lemma cs_list (l : List (ℚ × ℚ)) :
    ((l.map fun p => p.1 * p.2).sum) ^ 2 ≤
      ((l.map fun p => p.1 ^ 2).sum) * ((l.map fun p => p.2 ^ 2).sum) := by
  induction l with
  | nil => simp
  | cons p t ih =>
    simp only [List.map_cons, List.sum_cons]
    have hA0 : 0 ≤ (t.map fun p => p.1 ^ 2).sum := by
      apply List.sum_nonneg
      intro x hx
      obtain ⟨y, _, rfl⟩ := List.mem_map.mp hx
      exact sq_nonneg _
    have hB0 : 0 ≤ (t.map fun p => p.2 ^ 2).sum := by
      apply List.sum_nonneg
      intro x hx
      obtain ⟨y, _, rfl⟩ := List.mem_map.mp hx
      exact sq_nonneg _
    rcases eq_or_lt_of_le hB0 with hB' | hB'
    · have hSsq : ((t.map fun p => p.1 * p.2).sum) ^ 2 = 0 := by
        refine le_antisymm ?_ (sq_nonneg _)
        calc ((t.map fun p => p.1 * p.2).sum) ^ 2 ≤
            ((t.map fun p => p.1 ^ 2).sum) * ((t.map fun p => p.2 ^ 2).sum) := ih
          _ = 0 := by rw [← hB', mul_zero]
      have hS0 : (t.map fun p => p.1 * p.2).sum = 0 :=
        pow_eq_zero_iff (by norm_num) |>.mp hSsq
      rw [hS0, ← hB']
      nlinarith [mul_nonneg hA0 (sq_nonneg p.2)]
    · nlinarith [sq_nonneg (p.1 * (t.map fun p => p.2 ^ 2).sum -
          p.2 * (t.map fun p => p.1 * p.2).sum),
        mul_nonneg (sq_nonneg p.2) (sub_nonneg.mpr ih),
        mul_nonneg (sub_nonneg.mpr ih) hB'.le]

lemma var_nonneg (l : List ℚ) : 0 ≤ var l := by
  rw [var]
  apply div_nonneg
  · apply List.sum_nonneg
    intro x hx
    obtain ⟨y, _, rfl⟩ := List.mem_map.mp hx
    exact sq_nonneg _
  · exact Nat.cast_nonneg _

lemma cov_sq_le {xs ys : List ℚ} (h : xs.length = ys.length) :
    cov xs ys ^ 2 ≤ var xs * var ys := by
  rcases xs with _ | ⟨a, as⟩
  · simp [cov, var]
  · have hxle : (a :: as).length ≤ ys.length := h.le
    have hyle : ys.length ≤ (a :: as).length := h.ge
    have hA : (((a :: as).zip ys).map fun p => (p.1 - mean (a :: as)) ^ 2).sum
        = ((a :: as).map fun x => (x - mean (a :: as)) ^ 2).sum := by
      have h1 : (((a :: as).zip ys).map fun p => (p.1 - mean (a :: as)) ^ 2)
          = (((a :: as).zip ys).map Prod.fst).map
              fun x => (x - mean (a :: as)) ^ 2 := by
        rw [List.map_map]
        rfl
      rw [h1, List.map_fst_zip _ _ hxle]
    have hB : (((a :: as).zip ys).map fun p => (p.2 - mean ys) ^ 2).sum
        = (ys.map fun y => (y - mean ys) ^ 2).sum := by
      have h1 : (((a :: as).zip ys).map fun p => (p.2 - mean ys) ^ 2)
          = (((a :: as).zip ys).map Prod.snd).map fun y => (y - mean ys) ^ 2 := by
        rw [List.map_map]
        rfl
      rw [h1, List.map_snd_zip _ _ hyle]
    have e1 : ((((a :: as).zip ys).map
          fun p => (p.1 - mean (a :: as), p.2 - mean ys)).map
            fun p => p.1 * p.2)
        = ((a :: as).zip ys).map
            fun p => (p.1 - mean (a :: as)) * (p.2 - mean ys) := by
      rw [List.map_map]
      rfl
    have e2 : ((((a :: as).zip ys).map
          fun p => (p.1 - mean (a :: as), p.2 - mean ys)).map
            fun p => p.1 ^ 2)
        = ((a :: as).zip ys).map fun p => (p.1 - mean (a :: as)) ^ 2 := by
      rw [List.map_map]
      rfl
    have e3 : ((((a :: as).zip ys).map
          fun p => (p.1 - mean (a :: as), p.2 - mean ys)).map
            fun p => p.2 ^ 2)
        = ((a :: as).zip ys).map fun p => (p.2 - mean ys) ^ 2 := by
      rw [List.map_map]
      rfl
    have hCS := cs_list (((a :: as).zip ys).map
      fun p => (p.1 - mean (a :: as), p.2 - mean ys))
    rw [e1, e2, e3, hA, hB] at hCS
    rw [cov, var, var, ← h]
    rw [div_pow, div_mul_div_comm, ← pow_two]
    have hn : (0 : ℚ) < (((a :: as).length : ℚ)) ^ 2 := by
      have : (0 : ℚ) < ((a :: as).length : ℚ) := by
        exact_mod_cast Nat.succ_pos as.length
      positivity
    exact (div_le_div_right hn).mpr hCS

lemma zip_self (l : List ℚ) : l.zip l = l.map fun x => (x, x) := by
  induction l with
  | nil => rfl
  | cons a t ih => simp [ih]

lemma cov_self (l : List ℚ) : cov l l = var l := by
  rw [cov, var, zip_self, List.map_map]
  congr 1
  refine congrArg List.sum (List.map_congr_left ?_)
  intro x _
  simp only [Function.comp_apply, pow_two]

lemma sum_map_neg (l : List ℚ) (f : ℚ → ℚ) :
    (l.map fun x => -(f x)).sum = -(l.map f).sum := by
  induction l with
  | nil => simp
  | cons a t ih => simp [ih]; ring

lemma mean_neg (l : List ℚ) : mean (l.map fun v => -v) = -(mean l) := by
  rw [mean, mean, List.length_map]
  have hs : ((l.map fun v => -v)).sum = -(l.sum) := by
    simpa using sum_map_neg l id
  rw [hs, neg_div]

lemma var_neg (l : List ℚ) : var (l.map fun v => -v) = var l := by
  rw [var, var, List.length_map, mean_neg, List.map_map]
  congr 1
  refine congrArg List.sum (List.map_congr_left ?_)
  intro x _
  simp only [Function.comp_apply]
  ring

lemma cov_neg (l : List ℚ) : cov l (l.map fun v => -v) = -(var l) := by
  rw [cov, var, mean_neg, List.zip_map_right, zip_self]
  simp only [List.map_map]
  rw [← neg_div, ← sum_map_neg l fun x => (x - mean l) ^ 2]
  congr 1
  refine congrArg List.sum (List.map_congr_left ?_)
  intro x _
  simp only [Function.comp_apply, Prod.map_apply, id_eq]
  ring

/-! ## Claims C4 and C9 -/

/-- Claim C4: the correlation score is undefined exactly when the aligned
length is below 10 or either sequence has zero variance; otherwise it is
defined, lies in [-1, 1], and the reported value is its rounding to 6
decimal digits (an integer multiple of 10^-6 within half an ulp of r). -/
theorem c4_score_guards (xs ys : List ℚ) (hlen : xs.length = ys.length) :
    (pearson_r xs ys = none ↔
      xs.length < 10 ∨ var xs = 0 ∨ var ys = 0) ∧
    ∀ r, pearson_r xs ys = some r →
      (-1 ≤ r ∧ r ≤ 1) ∧
      ∃ m : ℤ, roundTo6 r = (m : ℝ) / 1000000 ∧
        |roundTo6 r - r| ≤ 1 / 2000000 := by
  constructor
  · rw [pearson_r]
    by_cases h10 : xs.length < 10
    · simp [h10]
    · rw [if_neg h10]
      by_cases hv : var xs = 0 ∨ var ys = 0
      · simp [hv, h10]
      · simp [hv, h10]
  · intro r hr
    rw [pearson_r] at hr
    by_cases h10 : xs.length < 10
    · rw [if_pos h10] at hr
      cases hr
    · rw [if_neg h10] at hr
      by_cases hv : var xs = 0 ∨ var ys = 0
      · rw [if_pos hv] at hr
        cases hr
      · rw [if_neg hv] at hr
        injection hr with hr
        push_neg at hv
        obtain ⟨hvx, hvy⟩ := hv
        have hvx' : 0 < var xs := lt_of_le_of_ne (var_nonneg xs) (Ne.symm hvx)
        have hvy' : 0 < var ys := lt_of_le_of_ne (var_nonneg ys) (Ne.symm hvy)
        have hxR : (0 : ℝ) < ((var xs : ℚ) : ℝ) := by exact_mod_cast hvx'
        have hyR : (0 : ℝ) < ((var ys : ℚ) : ℝ) := by exact_mod_cast hvy'
        constructor
        · subst hr
          have hprod : (0 : ℝ) < ((var xs : ℚ) : ℝ) * ((var ys : ℚ) : ℝ) :=
            mul_pos hxR hyR
          have hCS : (((cov xs ys : ℚ)) : ℝ) ^ 2 ≤
              ((var xs : ℚ) : ℝ) * ((var ys : ℚ) : ℝ) := by
            exact_mod_cast cov_sq_le hlen
          have habs : |(((cov xs ys : ℚ)) : ℝ)| ≤
              Real.sqrt (((var xs : ℚ) : ℝ) * ((var ys : ℚ) : ℝ)) := by
            rw [← Real.sqrt_sq_eq_abs]
            exact Real.sqrt_le_sqrt hCS
          have hsq : Real.sqrt (((var xs : ℚ) : ℝ) * ((var ys : ℚ) : ℝ)) =
              Real.sqrt ((var xs : ℚ) : ℝ) * Real.sqrt ((var ys : ℚ) : ℝ) :=
            Real.sqrt_mul hxR.le _
          have hden : 0 < Real.sqrt ((var xs : ℚ) : ℝ) *
              Real.sqrt ((var ys : ℚ) : ℝ) := by
            rw [← hsq]
            exact Real.sqrt_pos.mpr hprod
          have hle1 : |corrVal xs ys| ≤ 1 := by
            rw [corrVal, abs_div, abs_of_pos hden, div_le_one hden, ← hsq]
            exact habs
          exact abs_le.mp hle1
        · refine ⟨round (r * 1000000), rfl, ?_⟩
          have key : roundTo6 r - r =
              (((round (r * 1000000) : ℤ) : ℝ) - r * 1000000) / 1000000 := by
            rw [roundTo6]
            ring
          rw [key, abs_div, abs_of_pos (by norm_num : (0 : ℝ) < 1000000)]
          have h1 : |((round (r * 1000000) : ℤ) : ℝ) - r * 1000000| ≤ 1 / 2 := by
            rw [abs_sub_comm]
            exact abs_sub_round _
          calc |((round (r * 1000000) : ℤ) : ℝ) - r * 1000000| / 1000000
              ≤ (1 / 2) / 1000000 :=
                (div_le_div_right (by norm_num : (0 : ℝ) < 1000000)).mpr h1
            _ = 1 / 2000000 := by norm_num

theorem c4_witness :
    pearson_r [0, 0, 0] [1, 2, 3] = none ↔
      ([0, 0, 0] : List ℚ).length < 10 ∨ var ([0, 0, 0] : List ℚ) = 0 ∨
        var ([1, 2, 3] : List ℚ) = 0 :=
  (c4_score_guards [0, 0, 0] [1, 2, 3] rfl).1

lemma var_replicate (n : ℕ) (c : ℚ) : var (List.replicate n c) = 0 := by
  cases n with
  | zero => simp [var, mean]
  | succ k =>
    have hm : mean (List.replicate (k + 1) c) = c := by
      rw [mean]
      simp only [List.sum_replicate, List.length_replicate, nsmul_eq_mul]
      rw [mul_comm, mul_div_assoc,
        div_self (by exact_mod_cast Nat.succ_ne_zero k : ((k + 1 : ℕ) : ℚ) ≠ 0),
        mul_one]
    rw [var, hm]
    simp

lemma corrVal_self {l : List ℚ} (hv : var l ≠ 0) : corrVal l l = 1 := by
  rw [corrVal, cov_self]
  have h0 : (0 : ℝ) ≤ ((var l : ℚ) : ℝ) := by exact_mod_cast var_nonneg l
  rw [Real.mul_self_sqrt h0]
  exact div_self (by exact_mod_cast hv)

lemma corrVal_neg {l : List ℚ} (hv : var l ≠ 0) :
    corrVal l (l.map fun v => -v) = -1 := by
  rw [corrVal, cov_neg, var_neg]
  have h0 : (0 : ℝ) ≤ ((var l : ℚ) : ℝ) := by exact_mod_cast var_nonneg l
  rw [Real.mul_self_sqrt h0, Rat.cast_neg, neg_div,
    div_self (by exact_mod_cast hv : ((var l : ℚ) : ℝ) ≠ 0)]

/-- Claim C9: a non-constant sequence of length at least 10 has correlation
1 with itself and -1 with its exact negation, and correlation against a
constant sequence is always undefined. -/
theorem c9_self_negation_constant (xs : List ℚ) (h10 : 10 ≤ xs.length)
    (hv : var xs ≠ 0) :
    pearson_r xs xs = some 1 ∧
    pearson_r xs (xs.map fun v => -v) = some (-1) ∧
    ∀ n c, pearson_r xs (List.replicate n c) = none := by
  have hn10 : ¬ xs.length < 10 := not_lt.mpr h10
  refine ⟨?_, ?_, ?_⟩
  · rw [pearson_r, if_neg hn10, if_neg (by push_neg; exact ⟨hv, hv⟩),
      corrVal_self hv]
  · rw [pearson_r, if_neg hn10,
      if_neg (by push_neg; exact ⟨hv, by rw [var_neg]; exact hv⟩),
      corrVal_neg hv]
  · intro n c
    rw [pearson_r, if_neg hn10, if_pos (Or.inr (var_replicate n c))]

def wQ : List ℚ := [0, 1, 2, 3, 4, 5, 6, 7, 8, 9]

theorem c9_witness :
    pearson_r wQ wQ = some 1 ∧
    pearson_r wQ (wQ.map fun v => -v) = some (-1) ∧
    ∀ n c, pearson_r wQ (List.replicate n c) = none :=
  c9_self_negation_constant wQ (by decide) (by norm_num [wQ, var, mean])

/-! ## Claims C5 and C8: classification and deduplication -/

/-- Claim C5: the classification loop realises first-match priority — the
three output lists are exactly the filters of the input by `funnyRule`, by
`financialRule`-but-not-`funnyRule`, and by `otherRule`-but-neither — each
row lands in at most one category, and a row matching no rule is dropped
from all three lists. -/
theorem c5_first_match (rows : List Row) :
    categorize rows = (rows.filter funnyRule,
      rows.filter fun c => !funnyRule c && financialRule c,
      rows.filter fun c => !funnyRule c && !financialRule c && otherRule c) ∧
    (∀ c ∈ rows, funnyRule c = false → financialRule c = false →
      otherRule c = false → c ∉ (categorize rows).1 ∧
        c ∉ (categorize rows).2.1 ∧ c ∉ (categorize rows).2.2) ∧
    ∀ c, (c ∈ (categorize rows).1 →
        c ∉ (categorize rows).2.1 ∧ c ∉ (categorize rows).2.2) ∧
      (c ∈ (categorize rows).2.1 → c ∉ (categorize rows).2.2) := by
  have heq : categorize rows = (rows.filter funnyRule,
      rows.filter fun c => !funnyRule c && financialRule c,
      rows.filter fun c => !funnyRule c && !financialRule c && otherRule c) := by
    induction rows with
    | nil => rfl
    | cons c rest ih =>
      by_cases h1 : funnyRule c = true
      · simp [categorize, List.filter_cons, h1, ih]
      · by_cases h2 : financialRule c = true
        · simp [categorize, List.filter_cons, h1, h2, ih]
        · by_cases h3 : otherRule c = true
          · simp [categorize, List.filter_cons, h1, h2, h3, ih]
          · simp [categorize, List.filter_cons, h1, h2, h3, ih]
  refine ⟨heq, ?_, ?_⟩
  · intro c hc hf hfin ho
    rw [heq]
    simp [List.mem_filter, hf, hfin, ho]
  · intro c
    rw [heq]
    constructor
    · intro hc
      have h1 := (List.mem_filter.mp hc).2
      constructor
      · intro hc2
        have h2 := (List.mem_filter.mp hc2).2
        simp [h1] at h2
      · intro hc2
        have h2 := (List.mem_filter.mp hc2).2
        simp [h1] at h2
    · intro hc
      have h1 := (List.mem_filter.mp hc).2
      intro hc2
      have h2 := (List.mem_filter.mp hc2).2
      simp only [Bool.and_eq_true, Bool.not_eq_true'] at h1 h2
      rw [h2.1.2] at h1
      exact Bool.false_ne_true h1.2

theorem c5_witness :
    categorize [⟨"a", "Coffee", 0, 1, 20⟩] =
      ([⟨"a", "Coffee", 0, 1, 20⟩].filter funnyRule,
        [⟨"a", "Coffee", 0, 1, 20⟩].filter
          fun c => !funnyRule c && financialRule c,
        [⟨"a", "Coffee", 0, 1, 20⟩].filter
          fun c => !funnyRule c && !financialRule c && otherRule c) :=
  (c5_first_match [⟨"a", "Coffee", 0, 1, 20⟩]).1

lemma dedupGo_filter (t : String) : ∀ (l : List Row) (seen : List String),
    (dedupGo seen l).filter (fun c => c.title == t) =
      if t ∈ seen then [] else (l.filter fun c => c.title == t).take 1 := by
  intro l
  induction l with
  | nil => intro seen; simp [dedupGo]
  | cons c rest ih =>
    intro seen
    rw [dedupGo]
    by_cases hc : seen.contains c.title
    · rw [if_pos hc, ih seen]
      by_cases hct : c.title = t
      · have ht : t ∈ seen := by
          rw [← hct]
          exact (contains_iff _ _).mp hc
        rw [if_pos ht, if_pos ht]
      · simp only [List.filter_cons, beq_iff_eq, hct, if_false]
    · rw [if_neg hc]
      by_cases hct : c.title = t
      · have ht : t ∉ seen := fun h => hc ((contains_iff _ _).mpr (hct ▸ h))
        have ht2 : t ∈ c.title :: seen := by
          rw [hct]
          exact List.mem_cons_self _ _
        rw [List.filter_cons, ih (c.title :: seen), if_pos ht2]
        simp [hct, ht, List.filter_cons]
      · have hiff : (t ∈ c.title :: seen) ↔ t ∈ seen := by
          simp only [List.mem_cons]
          exact ⟨fun h => h.elim (fun h' => absurd h'.symm hct) id, Or.inr⟩
        rw [List.filter_cons, ih (c.title :: seen)]
        by_cases ht : t ∈ seen
        · simp [hiff.mpr ht, ht, hct]
        · have ht2 : t ∉ c.title :: seen := fun h => ht (hiff.mp h)
          simp [ht2, ht, hct, List.filter_cons]

lemma dedupGo_sublist : ∀ (l : List Row) (seen : List String),
    (dedupGo seen l).Sublist l := by
  intro l
  induction l with
  | nil => intro seen; simp [dedupGo]
  | cons c rest ih =>
    intro seen
    rw [dedupGo]
    by_cases hc : seen.contains c.title
    · rw [if_pos hc]
      exact (ih seen).cons c
    · rw [if_neg hc]
      exact (ih (c.title :: seen)).cons₂ c

lemma dedupGo_not_seen : ∀ (l : List Row) (seen : List String),
    ∀ c ∈ dedupGo seen l, c.title ∉ seen := by
  intro l
  induction l with
  | nil => intro seen c hc; cases hc
  | cons a rest ih =>
    intro seen c hc
    rw [dedupGo] at hc
    by_cases ha : seen.contains a.title
    · rw [if_pos ha] at hc
      exact ih seen c hc
    · rw [if_neg ha] at hc
      rcases List.mem_cons.mp hc with rfl | hmem
      · exact fun h => ha ((contains_iff _ _).mpr h)
      · exact fun h => ih (a.title :: seen) c hmem (List.mem_cons_of_mem _ h)

lemma dedupGo_titles_nodup : ∀ (l : List Row) (seen : List String),
    ((dedupGo seen l).map Row.title).Nodup := by
  intro l
  induction l with
  | nil => intro seen; simp [dedupGo]
  | cons a rest ih =>
    intro seen
    rw [dedupGo]
    by_cases ha : seen.contains a.title
    · rw [if_pos ha]
      exact ih seen
    · rw [if_neg ha]
      simp only [List.map_cons, List.nodup_cons]
      refine ⟨fun hmem => ?_, ih _⟩
      obtain ⟨c, hc, hct⟩ := List.mem_map.mp hmem
      refine dedupGo_not_seen rest (a.title :: seen) c hc ?_
      rw [hct]
      exact List.mem_cons_self _ _

lemma dedupGo_eq_self : ∀ (l : List Row) (seen : List String),
    (l.map Row.title).Nodup → (∀ c ∈ l, c.title ∉ seen) →
      dedupGo seen l = l := by
  intro l
  induction l with
  | nil => intro seen _ _; rfl
  | cons a rest ih =>
    intro seen hnd hns
    simp only [List.map_cons, List.nodup_cons] at hnd
    rw [dedupGo,
      if_neg (fun h => hns a (List.mem_cons_self _ _) ((contains_iff _ _).mp h))]
    congr 1
    refine ih (a.title :: seen) hnd.2 ?_
    intro c hc hmem
    rcases List.mem_cons.mp hmem with h | h
    · refine hnd.1 ?_
      rw [← h]
      exact List.mem_map.mpr ⟨c, hc, rfl⟩
    · exact hns c (List.mem_cons_of_mem _ hc) h

/-- Claim C8: deduplication keeps, for each title, exactly the first row
bearing it (in input order, as the order-preserving sublist property and the
per-title `take 1` characterisation express), and it is idempotent. -/
theorem c8_dedup_first_idempotent (l : List Row) :
    (∀ t, (dedupByTitle l).filter (fun c => c.title == t) =
      (l.filter fun c => c.title == t).take 1) ∧
    (dedupByTitle l).Sublist l ∧
    dedupByTitle (dedupByTitle l) = dedupByTitle l := by
  refine ⟨fun t => ?_, dedupGo_sublist l [], ?_⟩
  · have h := dedupGo_filter t l []
    simpa [dedupByTitle] using h
  · exact dedupGo_eq_self (dedupGo [] l) [] (dedupGo_titles_nodup l [])
      (fun c _ h => List.not_mem_nil _ h)

theorem c8_witness :
    (∀ t, (dedupByTitle [⟨"a", "T", 0, 0, 20⟩, ⟨"b", "T", 0, 0, 20⟩]).filter
        (fun c => c.title == t) =
      ([⟨"a", "T", 0, 0, 20⟩, ⟨"b", "T", 0, 0, 20⟩].filter
        fun c => c.title == t).take 1) ∧
    (dedupByTitle [⟨"a", "T", 0, 0, 20⟩, ⟨"b", "T", 0, 0, 20⟩]).Sublist
      [⟨"a", "T", 0, 0, 20⟩, ⟨"b", "T", 0, 0, 20⟩] ∧
    dedupByTitle (dedupByTitle [⟨"a", "T", 0, 0, 20⟩, ⟨"b", "T", 0, 0, 20⟩]) =
      dedupByTitle [⟨"a", "T", 0, 0, 20⟩, ⟨"b", "T", 0, 0, 20⟩] :=
  c8_dedup_first_idempotent [⟨"a", "T", 0, 0, 20⟩, ⟨"b", "T", 0, 0, 20⟩]

/-! ## Claim C6: family caps in the rotation build -/

lemma capFinancial_bofa (l : List Row) : ∀ b v,
    ((capFinancial b v l).countP isBofA) ≤ 5 - b := by
  induction l with
  | nil => intro b v; simp [capFinancial]
  | cons c rest ih =>
    intro b v
    rw [capFinancial]
    by_cases hB : isBofA c = true
    · rw [if_pos hB]
      by_cases h5 : b + 1 > 5
      · rw [if_pos h5]
        exact le_trans (ih (b + 1) v) (by omega)
      · rw [if_neg h5]
        by_cases hV : isVol c = true
        · rw [if_pos hV]
          by_cases h3 : v + 1 > 3
          · rw [if_pos h3]
            exact le_trans (ih (b + 1) (v + 1)) (by omega)
          · rw [if_neg h3, List.countP_cons_of_pos _ _ hB]
            have := ih (b + 1) (v + 1)
            omega
        · rw [if_neg hV, List.countP_cons_of_pos _ _ hB]
          have := ih (b + 1) v
          omega
    · rw [if_neg hB]
      by_cases hV : isVol c = true
      · rw [if_pos hV]
        by_cases h3 : v + 1 > 3
        · rw [if_pos h3]
          exact ih b (v + 1)
        · rw [if_neg h3, List.countP_cons_of_neg _ _ hB]
          exact ih b (v + 1)
      · rw [if_neg hV, List.countP_cons_of_neg _ _ hB]
        exact ih b v

lemma capFinancial_vol (l : List Row) : ∀ b v,
    ((capFinancial b v l).countP isVol) ≤ 3 - v := by
  induction l with
  | nil => intro b v; simp [capFinancial]
  | cons c rest ih =>
    intro b v
    rw [capFinancial]
    by_cases hB : isBofA c = true
    · rw [if_pos hB]
      by_cases h5 : b + 1 > 5
      · rw [if_pos h5]
        exact ih (b + 1) v
      · rw [if_neg h5]
        by_cases hV : isVol c = true
        · rw [if_pos hV]
          by_cases h3 : v + 1 > 3
          · rw [if_pos h3]
            exact le_trans (ih (b + 1) (v + 1)) (by omega)
          · rw [if_neg h3, List.countP_cons_of_pos _ _ hV]
            have := ih (b + 1) (v + 1)
            omega
        · rw [if_neg hV, List.countP_cons_of_neg _ _ hV]
          exact ih (b + 1) v
    · rw [if_neg hB]
      by_cases hV : isVol c = true
      · rw [if_pos hV]
        by_cases h3 : v + 1 > 3
        · rw [if_pos h3]
          exact le_trans (ih b (v + 1)) (by omega)
        · rw [if_neg h3, List.countP_cons_of_pos _ _ hV]
          have := ih b (v + 1)
          omega
      · rw [if_neg hV, List.countP_cons_of_neg _ _ hV]
        exact ih b v

/-- Claim C6: in the curated output, at most 5 financial-category entries of
the "ICE BofA" family and at most 3 of the CBOE/VIX family survive the caps,
and no other-category entry of the "ICE BofA" or "CBOE" families (the
families capped, and hence representable, in `financial`) is kept. -/
theorem c6_family_caps (input : List Row) :
    ((curate input).countP
      fun p => decide (p.2 = Cat.financial) && isBofA p.1) ≤ 5 ∧
    ((curate input).countP
      fun p => decide (p.2 = Cat.financial) && isVol p.1) ≤ 3 ∧
    ∀ p ∈ curate input, p.2 = Cat.other →
      isBofA p.1 = false ∧ strContains p.1.title.data "CBOE" = false := by
  have hperm : (curate input).Perm
      (((sortRows (categorize (dedupByTitle (reliableRows input))).1).map
          fun c => (c, Cat.funny)) ++
        ((capFinancial 0 0
            (sortRows (categorize (dedupByTitle (reliableRows input))).2.1)).map
          fun c => (c, Cat.financial)) ++
        ((capOther
            (sortRows (categorize (dedupByTitle (reliableRows input))).2.2)).map
          fun c => (c, Cat.other))) := List.perm_insertionSort _ _
  refine ⟨?_, ?_, ?_⟩
  · rw [hperm.countP_eq, List.countP_append, List.countP_append,
      List.countP_map, List.countP_map, List.countP_map]
    have hA : ((sortRows
        (categorize (dedupByTitle (reliableRows input))).1).countP
          ((fun p : Row × Cat => decide (p.2 = Cat.financial) && isBofA p.1) ∘
            fun c => (c, Cat.funny))) = 0 := by
      apply List.countP_eq_zero.mpr
      intro a _
      simp [Function.comp]
    have hC : ((capOther
        (sortRows (categorize (dedupByTitle (reliableRows input))).2.2)).countP
          ((fun p : Row × Cat => decide (p.2 = Cat.financial) && isBofA p.1) ∘
            fun c => (c, Cat.other))) = 0 := by
      apply List.countP_eq_zero.mpr
      intro a _
      simp [Function.comp]
    have hB : ((capFinancial 0 0
        (sortRows (categorize (dedupByTitle (reliableRows input))).2.1)).countP
          ((fun p : Row × Cat => decide (p.2 = Cat.financial) && isBofA p.1) ∘
            fun c => (c, Cat.financial))) ≤ 5 := by
      have he : ((fun p : Row × Cat => decide (p.2 = Cat.financial) && isBofA p.1) ∘
          fun c => (c, Cat.financial)) = isBofA := by
        funext c
        simp [Function.comp]
      rw [he]
      exact capFinancial_bofa _ 0 0
    omega
  · rw [hperm.countP_eq, List.countP_append, List.countP_append,
      List.countP_map, List.countP_map, List.countP_map]
    have hA : ((sortRows
        (categorize (dedupByTitle (reliableRows input))).1).countP
          ((fun p : Row × Cat => decide (p.2 = Cat.financial) && isVol p.1) ∘
            fun c => (c, Cat.funny))) = 0 := by
      apply List.countP_eq_zero.mpr
      intro a _
      simp [Function.comp]
    have hC : ((capOther
        (sortRows (categorize (dedupByTitle (reliableRows input))).2.2)).countP
          ((fun p : Row × Cat => decide (p.2 = Cat.financial) && isVol p.1) ∘
            fun c => (c, Cat.other))) = 0 := by
      apply List.countP_eq_zero.mpr
      intro a _
      simp [Function.comp]
    have hB : ((capFinancial 0 0
        (sortRows (categorize (dedupByTitle (reliableRows input))).2.1)).countP
          ((fun p : Row × Cat => decide (p.2 = Cat.financial) && isVol p.1) ∘
            fun c => (c, Cat.financial))) ≤ 3 := by
      have he : ((fun p : Row × Cat => decide (p.2 = Cat.financial) && isVol p.1) ∘
          fun c => (c, Cat.financial)) = isVol := by
        funext c
        simp [Function.comp]
      rw [he]
      exact capFinancial_vol _ 0 0
    omega
  · intro p hp hother
    have hmem := hperm.mem_iff.mp hp
    rcases List.mem_append.mp hmem with hAB | hC
    · rcases List.mem_append.mp hAB with hA | hB
      · obtain ⟨c, _, rfl⟩ := List.mem_map.mp hA
        cases hother
      · obtain ⟨c, _, rfl⟩ := List.mem_map.mp hB
        cases hother
    · obtain ⟨c, hc, rfl⟩ := List.mem_map.mp hC
      have hpred := (List.mem_filter.mp hc).2
      simp only [Bool.not_eq_true', Bool.or_eq_false_iff] at hpred
      exact ⟨hpred.1, hpred.2⟩

theorem c6_witness :
    ((curate [⟨"a", "Mortgage Rate", 1, 1, 20⟩]).countP
      fun p => decide (p.2 = Cat.financial) && isBofA p.1) ≤ 5 ∧
    ((curate [⟨"a", "Mortgage Rate", 1, 1, 20⟩]).countP
      fun p => decide (p.2 = Cat.financial) && isVol p.1) ≤ 3 :=
  ⟨(c6_family_caps [⟨"a", "Mortgage Rate", 1, 1, 20⟩]).1,
    (c6_family_caps [⟨"a", "Mortgage Rate", 1, 1, 20⟩]).2.1⟩

/-! ## Claim C7: the exclusion decision -/

/-- Claim C7: a series is excluded by the catalog filter exactly when its id
is in the static denylist or the external category id set, or its
lower-cased title contains a disqualifying keyword; in particular any series
titled "Gold Price, London" is excluded, and a series titled "Initial
Claims, Unemployment Insurance" whose id is outside the id sets is kept. -/
theorem c7_exclusion (catIds : List String) :
    (∀ s : Series, keepSeries catIds s = false ↔
      (s.id ∈ EXCLUDE_IDS ++ catIds ∨
        ∃ kw ∈ EXCLUDE_KEYWORDS, strContains (lowerData s.title) kw = true)) ∧
    (∀ i, keepSeries catIds ⟨i, "Gold Price, London"⟩ = false) ∧
    ∀ i, i ∉ EXCLUDE_IDS ++ catIds →
      keepSeries catIds ⟨i, "Initial Claims, Unemployment Insurance"⟩ = true := by
  refine ⟨?_, ?_, ?_⟩
  · intro s
    simp only [keepSeries, effectiveExcludedIds, is_excluded,
      Bool.and_eq_false_iff, Bool.not_eq_false', Bool.not_eq_true',
      Bool.or_eq_true, Bool.or_eq_false_iff, contains_iff, List.any_eq_true,
      List.any_eq_false, contains_iff]
    constructor
    · rintro (h | h)
      · exact Or.inl h
      · rcases h with h | ⟨kw, hkw, hs⟩
        · exact Or.inl (List.mem_append.mpr (Or.inl h))
        · exact Or.inr ⟨kw, hkw, hs⟩
    · rintro (h | ⟨kw, hkw, hs⟩)
      · exact Or.inl h
      · exact Or.inr (Or.inr ⟨kw, hkw, hs⟩)
  · intro i
    have hkw : EXCLUDE_KEYWORDS.any
        (fun kw => strContains (lowerData "Gold Price, London") kw) = true := by
      decide
    simp [keepSeries, is_excluded, hkw]
  · intro i hi
    have hid1 : EXCLUDE_IDS.contains i = false := by
      rw [Bool.eq_false_iff]
      intro h
      exact hi (List.mem_append.mpr (Or.inl ((contains_iff _ _).mp h)))
    have hid2 : (effectiveExcludedIds catIds).contains i = false := by
      rw [Bool.eq_false_iff]
      intro h
      exact hi ((contains_iff _ _).mp h)
    have hkw : EXCLUDE_KEYWORDS.any (fun kw =>
        strContains (lowerData "Initial Claims, Unemployment Insurance") kw)
          = false := by
      decide
    simp only [keepSeries, is_excluded, hid1, hid2, hkw, Bool.or_false,
      Bool.not_false, Bool.and_self, Bool.and_true, Bool.not_eq_true',
      contains_iff]

theorem c7_witness :
    keepSeries ["FOO"] ⟨"X1", "Gold Price, London"⟩ = false ∧
    keepSeries ["FOO"] ⟨"ICSA", "Initial Claims, Unemployment Insurance"⟩ =
      true :=
  ⟨(c7_exclusion ["FOO"]).2.1 "X1",
    (c7_exclusion ["FOO"]).2.2 "ICSA" (by decide)⟩

end DCC
